import Mathlib

/-!
Shallow embedding of the `import_mu.py` module of the io_object_mu Blender
addon (KSP `.mu` model importer), together with proofs about the functions
the specification talks about: the MBM raster decoder (`load_mbm`), the
bump-map channel remap (`convert_bump`), the object-path indexing pass
(`create_object_paths`), the animation-curve path resolution in
`create_action`, and the wheel-friction field copy (`copy_friction`).

Bytes are modelled as `Nat` (in real data always < 256), buffers as
`List Nat`, and Python's fallible slicing/indexing primitives are given
total counterparts that agree with Python on every in-bounds access.
-/

namespace ImportMu

/-! ## Python sequence primitives

These model the Python builtins the source uses: slice read `l[i:j]`,
slice assignment `l[i:j] = r` (which may change the list's length when
`r` is shorter or longer than the slice), `str.join`, `file.read(n)`,
and dict insertion with last-writer-wins lookup. -/

/-- Python slice read `l[i:j]` for `0 ≤ i ≤ j`; both bounds are clamped
to the list length, and an empty range yields `[]`. -/
def pyGetSlice (l : List α) (i j : Nat) : List α :=
  (l.drop i).take (j - i)

/-- Python slice assignment `l[i:j] = r` for nonnegative indices: the
elements at positions `i ≤ k < j` (clamped) are removed and `r` is
spliced in their place.  When `j < i` Python inserts `r` at `i` without
removing anything, which `max i j` reproduces. -/
def pySetSlice (l : List α) (i j : Nat) (r : List α) : List α :=
  l.take i ++ r ++ l.drop (max i j)

/-- Python `sep.join(strings)`. -/
def pyJoin (sep : String) : List String → String
  | [] => ""
  | [s] => s
  | s :: ss => s ++ sep ++ pyJoin sep ss

/-- Python `file.read(n)` on the remaining bytes `rest` of a file: a
negative count reads to end of file, otherwise at most `n` bytes are
returned (fewer when the file is exhausted). -/
def pyRead (rest : List Nat) (n : Int) : List Nat :=
  if n < 0 then rest else rest.take n.toNat

/-- Python dict built by inserting the key/value pairs of `entries` in
order, queried by key: a later insert for the same key overwrites an
earlier one. -/
def pyDict (entries : List (String × α)) : String → Option α :=
  entries.foldl (fun d kv k => if k = kv.1 then some kv.2 else d k)
    (fun _ => none)

/-! ## convert_bump (import_mu.py lines 332-343)

`outp` starts as a copy of `pixels`; for every interior coordinate the
4-byte RGBA group is replaced by `[p[3], p[2], 255, 255]` where `p` is
read from the original `pixels`.  The Python loop `range(1, n - 1)` is
`List.range' 1 (n - 2)` (empty when `n < 3`, as in Python).  The source
also computes `nx`/`nz` for a commented-out sqrt-based Z reconstruction;
they are dead code and are omitted here.  Out-of-range reads `p[3]` are
modelled as 0 (Python would raise `IndexError`; every claim below stays
within bounds).  `load_mbm` passes the header's signed width/height;
they are taken here as `Nat` via `Int.toNat`, which agrees with Python
because both loops are empty unless `width ≥ 3` and `height ≥ 3`. -/

/-- Embedding of `convert_bump`: remap a packed normal map, leaving the
outermost 1-pixel border untouched. -/
def convert_bump (pixels : List Nat) (width height : Nat) : List Nat :=
  (List.range' 1 (height - 2)).foldl (fun outp y =>
    (List.range' 1 (width - 2)).foldl (fun outp x =>
      let index := (y * width + x) * 4
      let p := pyGetSlice pixels index (index + 4)
      pySetSlice outp index (index + 4) [p.getD 3 0, p.getD 2 0, 255, 255])
      outp)
    pixels

/-! ## Basic lemmas about the slice primitives -/

theorem pyGetSlice_length {l : List α} {i j : Nat} (h : j ≤ l.length) (hij : i ≤ j) :
    (pyGetSlice l i j).length = j - i := by
  simp [pyGetSlice]
  omega

theorem pyGetSlice_getD {l : List α} {i j k : Nat} (d : α) (hk : k < j - i) :
    (pyGetSlice l i j).getD k d = l.getD (i + k) d := by
  simp only [pyGetSlice, List.getD_eq_getElem?_getD, List.getElem?_take,
    List.getElem?_drop, hk, if_pos]

theorem pySetSlice_length {l r : List α} {i d : Nat}
    (hi : i + d ≤ l.length) (hr : r.length = d) :
    (pySetSlice l i (i + d) r).length = l.length := by
  simp [pySetSlice]
  omega

theorem pySetSlice_getD {l r : List α} {i d k : Nat}
    (hi : i + d ≤ l.length) (hr : r.length = d) (dflt : α) :
    (pySetSlice l i (i + d) r).getD k dflt
      = if i ≤ k ∧ k < i + d then r.getD (k - i) dflt else l.getD k dflt := by
  have hmax : max i (i + d) = i + d := by omega
  have hti : (l.take i).length = i := by simp; omega
  simp only [pySetSlice, hmax, List.append_assoc, List.getD_eq_getElem?_getD]
  rw [List.getElem?_append, hti, List.getElem?_append, hr]
  by_cases h1 : k < i
  · rw [if_pos h1, if_neg (by omega)]
    simp [List.getElem?_take, h1]
  · rw [if_neg h1]
    by_cases h2 : k < i + d
    · rw [if_pos (by omega), if_pos ⟨by omega, h2⟩]
    · rw [if_neg (by omega), if_neg (by omega), List.getElem?_drop]
      have hk : i + d + (k - i - d) = k := by omega
      rw [hk]

/-! ## Generic lemmas for folds of disjoint slice updates

Both `convert_bump` and the 24bpp branch of `load_mbm` update a pixel
buffer by writing a short list into the 4-byte group of each touched
pixel, with the written value computed from data that the fold does not
modify.  The lemmas below characterise such folds pointwise: region
starts are multiples of 4 and each write has length `d ≤ 4`, so any
byte position is covered by at most one region. -/

theorem foldl_pySetSlice_length {d : Nat} (v : Nat → List Nat) (ps : List Nat)
    (init : List Nat)
    (hv : ∀ p ∈ ps, (v p).length = d)
    (hb : ∀ p ∈ ps, p + d ≤ init.length) :
    (ps.foldl (fun b p => pySetSlice b p (p + d) (v p)) init).length = init.length := by
  induction ps generalizing init with
  | nil => rfl
  | cons p ps ih =>
    simp only [List.foldl_cons]
    have hlen : (pySetSlice init p (p + d) (v p)).length = init.length :=
      pySetSlice_length (hb p (by simp)) (hv p (by simp))
    rw [ih _ (fun q hq => hv q (by simp [hq]))
        (fun q hq => by rw [hlen]; exact hb q (by simp [hq])), hlen]

theorem foldl_pySetSlice_getD {d : Nat} (hd4 : d ≤ 4)
    (v : Nat → List Nat) (ps : List Nat) (init : List Nat) (k : Nat)
    (hv : ∀ p ∈ ps, (v p).length = d)
    (hb : ∀ p ∈ ps, p + d ≤ init.length)
    (h4 : ∀ p ∈ ps, p % 4 = 0) :
    (ps.foldl (fun b p => pySetSlice b p (p + d) (v p)) init).getD k 0
      = if 4 * (k / 4) ∈ ps ∧ k % 4 < d then (v (4 * (k / 4))).getD (k % 4) 0
        else init.getD k 0 := by
  induction ps generalizing init with
  | nil => simp
  | cons p ps ih =>
    simp only [List.foldl_cons]
    have hbp := hb p (by simp)
    have hvp := hv p (by simp)
    have h4p := h4 p (by simp)
    have hlen : (pySetSlice init p (p + d) (v p)).length = init.length :=
      pySetSlice_length hbp hvp
    rw [ih _ (fun q hq => hv q (by simp [hq]))
        (fun q hq => by rw [hlen]; exact hb q (by simp [hq]))
        (fun q hq => h4 q (by simp [hq]))]
    by_cases hmem : 4 * (k / 4) ∈ ps ∧ k % 4 < d
    · rw [if_pos hmem, if_pos ⟨by simp [hmem.1], hmem.2⟩]
    · rw [if_neg hmem, pySetSlice_getD hbp hvp]
      by_cases hc : p ≤ k ∧ k < p + d
      · have hp4 : p = 4 * (k / 4) := by omega
        have hkm : k % 4 = k - p := by omega
        rw [if_pos hc, if_pos ⟨List.mem_cons.mpr (Or.inl hp4.symm), by omega⟩,
          hkm, hp4]
      · have hout : ¬(4 * (k / 4) ∈ p :: ps ∧ k % 4 < d) := by
          simp only [List.mem_cons]
          rintro ⟨hm | hm, hlt⟩
          · exact hc ⟨by omega, by omega⟩
          · exact hmem ⟨hm, hlt⟩
        rw [if_neg hc, if_neg hout]

/-! ## Pointwise characterisation of convert_bump -/

/-- Byte offsets of the interior pixels visited by `convert_bump`, in
loop order. -/
def bumpIndexList (width height : Nat) : List Nat :=
  (List.range' 1 (height - 2)).flatMap
    (fun y => (List.range' 1 (width - 2)).map (fun x => (y * width + x) * 4))

/-- The 4-byte value `convert_bump` writes at offset `p`, read from the
original buffer: `[p[3], p[2], 255, 255]`. -/
def bumpVal (pixels : List Nat) (p : Nat) : List Nat :=
  [pixels.getD (p + 3) 0, pixels.getD (p + 2) 0, 255, 255]

theorem pyGetSlice_getD4 (l : List α) (i k : Nat) (d : α) (hk : k < 4) :
    (pyGetSlice l i (i + 4)).getD k d = l.getD (i + k) d :=
  pyGetSlice_getD d (by omega)

theorem convert_bump_aux (src : List Nat) (w : Nat) (ys : List Nat) (init : List Nat) :
    ys.foldl (fun outp y =>
        (List.range' 1 (w - 2)).foldl (fun outp x =>
          let index := (y * w + x) * 4
          let p := pyGetSlice src index (index + 4)
          pySetSlice outp index (index + 4) [p.getD 3 0, p.getD 2 0, 255, 255])
          outp)
      init
      = (ys.flatMap (fun y => (List.range' 1 (w - 2)).map (fun x => (y * w + x) * 4))).foldl
          (fun b p => pySetSlice b p (p + 4) (bumpVal src p)) init := by
  induction ys generalizing init with
  | nil => rfl
  | cons y ys ih =>
    simp only [List.foldl_cons, List.flatMap_cons, List.foldl_append, List.foldl_map]
    rw [← ih]
    congr 1
    refine List.foldl_ext _ _ _ (fun b x _ => ?_)
    have h3 : (pyGetSlice src ((y * w + x) * 4) ((y * w + x) * 4 + 4)).getD 3 0
        = src.getD ((y * w + x) * 4 + 3) 0 := pyGetSlice_getD4 _ _ _ _ (by omega)
    have h2 : (pyGetSlice src ((y * w + x) * 4) ((y * w + x) * 4 + 4)).getD 2 0
        = src.getD ((y * w + x) * 4 + 2) 0 := pyGetSlice_getD4 _ _ _ _ (by omega)
    simp only [h3, h2, bumpVal]

theorem convert_bump_eq_foldl (pixels : List Nat) (w h : Nat) :
    convert_bump pixels w h
      = (bumpIndexList w h).foldl
          (fun b p => pySetSlice b p (p + 4) (bumpVal pixels p)) pixels := by
  unfold convert_bump bumpIndexList
  exact convert_bump_aux pixels w (List.range' 1 (h - 2)) pixels

theorem mem_bumpIndexList {w h p : Nat} :
    p ∈ bumpIndexList w h
      ↔ ∃ y x, (1 ≤ y ∧ y + 1 < h) ∧ (1 ≤ x ∧ x + 1 < w) ∧ p = (y * w + x) * 4 := by
  simp only [bumpIndexList, List.mem_map, List.mem_flatMap, List.mem_range', one_mul]
  constructor
  · rintro ⟨y, ⟨i, hi, rfl⟩, x, ⟨j, hj, rfl⟩, rfl⟩
    exact ⟨1 + i, 1 + j, ⟨by omega, by omega⟩, ⟨by omega, by omega⟩, rfl⟩
  · rintro ⟨y, x, ⟨hy1, hy2⟩, ⟨hx1, hx2⟩, rfl⟩
    exact ⟨y, ⟨y - 1, by omega, by omega⟩, x, ⟨x - 1, by omega, by omega⟩, rfl⟩

theorem grid_index_lt {x y w h : Nat} (hx : x < w) (hy : y < h) :
    y * w + x < w * h := by
  calc y * w + x < y * w + w := by omega
    _ = (y + 1) * w := by ring
    _ ≤ h * w := Nat.mul_le_mul_right w hy
    _ = w * h := Nat.mul_comm h w

theorem grid_index_inj {x y x' y' w : Nat} (hx : x < w) (hx' : x' < w)
    (h : y' * w + x' = y * w + x) : y' = y ∧ x' = x := by
  rcases Nat.lt_trichotomy y' y with hlt | heq | hgt
  · exfalso
    have h1 : y' * w + x' < (y' + 1) * w := by rw [Nat.succ_mul]; omega
    have h2 : (y' + 1) * w ≤ y * w := Nat.mul_le_mul_right w hlt
    omega
  · subst heq
    omega
  · exfalso
    have h1 : y * w + x < (y + 1) * w := by rw [Nat.succ_mul]; omega
    have h2 : (y + 1) * w ≤ y' * w := Nat.mul_le_mul_right w hgt
    omega

theorem convert_bump_getD (pixels : List Nat) (w h : Nat)
    (hlen : pixels.length = w * h * 4) (k : Nat) :
    (convert_bump pixels w h).getD k 0
      = if 4 * (k / 4) ∈ bumpIndexList w h
        then (bumpVal pixels (4 * (k / 4))).getD (k % 4) 0
        else pixels.getD k 0 := by
  rw [convert_bump_eq_foldl]
  have hb : ∀ p ∈ bumpIndexList w h, p + 4 ≤ pixels.length := by
    intro p hp
    obtain ⟨y, x, ⟨_, hy2⟩, ⟨_, hx2⟩, rfl⟩ := mem_bumpIndexList.mp hp
    have := grid_index_lt (x := x) (y := y) (w := w) (h := h) (by omega) (by omega)
    omega
  rw [foldl_pySetSlice_getD (le_refl 4) (bumpVal pixels) _ _ k
      (fun p _ => rfl) hb
      (fun p hp => by obtain ⟨y, x, _, _, rfl⟩ := mem_bumpIndexList.mp hp; omega)]
  have : (k % 4 < 4) := by omega
  simp [this]

theorem convert_bump_length (pixels : List Nat) (w h : Nat)
    (hlen : pixels.length = w * h * 4) :
    (convert_bump pixels w h).length = pixels.length := by
  rw [convert_bump_eq_foldl]
  refine foldl_pySetSlice_length (bumpVal pixels) _ _ (fun p _ => rfl) ?_
  intro p hp
  obtain ⟨y, x, ⟨_, hy2⟩, ⟨_, hx2⟩, rfl⟩ := mem_bumpIndexList.mp hp
  have := grid_index_lt (x := x) (y := y) (w := w) (h := h) (by omega) (by omega)
  omega

theorem eq_four_list {l : List α} (d : α) (hl : l.length = 4) :
    l = [l.getD 0 d, l.getD 1 d, l.getD 2 d, l.getD 3 d] := by
  match l, hl with
  | [a, b, c, e], _ => rfl

/-- Concrete 3×3 RGBA buffer used to witness the bump-remap theorem. -/
def c1PixData : List Nat :=
  [10, 11, 12, 13, 20, 21, 22, 23, 30, 31, 32, 33,
   40, 41, 42, 43, 50, 51, 52, 53, 60, 61, 62, 63,
   70, 71, 72, 73, 80, 81, 82, 83, 90, 91, 92, 93]

/-- C1: for an RGBA buffer of size `width*height*4`, `convert_bump`
preserves the buffer length, leaves every pixel of the outermost
1-pixel border byte-for-byte unchanged, and rewrites every interior
pixel with source channels `(R,G,B,A)` to `(A, B, 255, 255)` — in
particular the blue channel is the constant 255, not the commented-out
sqrt-based Z reconstruction. -/
theorem convert_bump_c1 (pixels : List Nat) (w h : Nat)
    (hlen : pixels.length = w * h * 4) :
    (convert_bump pixels w h).length = pixels.length
    ∧ (∀ x y j, x < w → y < h → j < 4 →
        (x = 0 ∨ y = 0 ∨ x = w - 1 ∨ y = h - 1) →
        (convert_bump pixels w h).getD ((y * w + x) * 4 + j) 0
          = pixels.getD ((y * w + x) * 4 + j) 0)
    ∧ (∀ x y, 1 ≤ x → x + 1 < w → 1 ≤ y → y + 1 < h →
        pyGetSlice (convert_bump pixels w h) ((y * w + x) * 4) ((y * w + x) * 4 + 4)
          = [pixels.getD ((y * w + x) * 4 + 3) 0,
             pixels.getD ((y * w + x) * 4 + 2) 0, 255, 255]) := by
  refine ⟨convert_bump_length pixels w h hlen,
    fun x y j hx hy hj hborder => ?_, fun x y hx1 hx2 hy1 hy2 => ?_⟩
  · rw [convert_bump_getD pixels w h hlen]
    have hq : 4 * (((y * w + x) * 4 + j) / 4) = (y * w + x) * 4 := by omega
    rw [hq, if_neg ?_]
    intro hmem
    obtain ⟨y', x', ⟨hy'1, hy'2⟩, ⟨hx'1, hx'2⟩, heq⟩ := mem_bumpIndexList.mp hmem
    have heq' : y' * w + x' = y * w + x := by omega
    obtain ⟨rfl, rfl⟩ := grid_index_inj hx (by omega) heq'
    omega
  · have hmemb : (y * w + x) * 4 ∈ bumpIndexList w h :=
      mem_bumpIndexList.mpr ⟨y, x, ⟨hy1, hy2⟩, ⟨hx1, hx2⟩, rfl⟩
    have hout : ∀ m, m < 4 →
        (convert_bump pixels w h).getD ((y * w + x) * 4 + m) 0
          = (bumpVal pixels ((y * w + x) * 4)).getD m 0 := by
      intro m hm
      rw [convert_bump_getD pixels w h hlen]
      have hq : 4 * (((y * w + x) * 4 + m) / 4) = (y * w + x) * 4 := by omega
      have hr : ((y * w + x) * 4 + m) % 4 = m := by omega
      rw [hq, hr, if_pos hmemb]
    have hlen4 : (pyGetSlice (convert_bump pixels w h)
        ((y * w + x) * 4) ((y * w + x) * 4 + 4)).length = 4 := by
      have hc := convert_bump_length pixels w h hlen
      have hq := grid_index_lt (x := x) (y := y) (w := w) (h := h) (by omega) (by omega)
      have := pyGetSlice_length (l := convert_bump pixels w h)
        (i := (y * w + x) * 4) (j := (y * w + x) * 4 + 4) (by omega) (by omega)
      omega
    rw [eq_four_list 0 hlen4,
      pyGetSlice_getD4 _ _ _ _ (by omega), pyGetSlice_getD4 _ _ _ _ (by omega),
      pyGetSlice_getD4 _ _ _ _ (by omega), pyGetSlice_getD4 _ _ _ _ (by omega),
      hout 0 (by omega), hout 1 (by omega), hout 2 (by omega), hout 3 (by omega)]
    rfl

/-- Witness for C1 at a concrete 3×3 buffer. -/
theorem convert_bump_c1_witness :
    c1PixData.length = 3 * 3 * 4
    ∧ ((convert_bump c1PixData 3 3).length = c1PixData.length
      ∧ (∀ x y j, x < 3 → y < 3 → j < 4 →
          (x = 0 ∨ y = 0 ∨ x = 3 - 1 ∨ y = 3 - 1) →
          (convert_bump c1PixData 3 3).getD ((y * 3 + x) * 4 + j) 0
            = c1PixData.getD ((y * 3 + x) * 4 + j) 0)
      ∧ (∀ x y, 1 ≤ x → x + 1 < 3 → 1 ≤ y → y + 1 < 3 →
          pyGetSlice (convert_bump c1PixData 3 3) ((y * 3 + x) * 4) ((y * 3 + x) * 4 + 4)
            = [c1PixData.getD ((y * 3 + x) * 4 + 3) 0,
               c1PixData.getD ((y * 3 + x) * 4 + 2) 0, 255, 255])) :=
  ⟨by decide, convert_bump_c1 c1PixData 3 3 (by decide)⟩

/-! ## load_mbm (import_mu.py lines 346-364)

The MBM raster container: a 20-byte header of five little-endian signed
32-bit integers `(magic, width, height, bump, bpp)` followed by the
pixel payload.  The source signals failures with bare `raise`
statements; they are modelled by the constructors of `MbmError` (the
spec names the magic failure `BadMagic` and the bit-depth failure
`UnsupportedPixelFormat`; a header shorter than 20 bytes makes
`struct.unpack` itself fail, modelled as `truncatedHeader`). -/

/-- Decode four bytes as one little-endian signed 32-bit integer, as
`struct.unpack("<i", ...)` does. -/
def decodeI32le (b0 b1 b2 b3 : Nat) : Int :=
  let u := b0 + 256 * b1 + 65536 * b2 + 16777216 * b3
  if u < 2147483648 then (u : Int) else (u : Int) - 4294967296

/-- Decode `struct.unpack("<5i", l)`: fails unless `l` is exactly 20
bytes long. -/
def unpack5i (l : List Nat) : Option (Int × Int × Int × Int × Int) :=
  if l.length = 20 then
    some (decodeI32le (l.getD 0 0) (l.getD 1 0) (l.getD 2 0) (l.getD 3 0),
          decodeI32le (l.getD 4 0) (l.getD 5 0) (l.getD 6 0) (l.getD 7 0),
          decodeI32le (l.getD 8 0) (l.getD 9 0) (l.getD 10 0) (l.getD 11 0),
          decodeI32le (l.getD 12 0) (l.getD 13 0) (l.getD 14 0) (l.getD 15 0),
          decodeI32le (l.getD 16 0) (l.getD 17 0) (l.getD 18 0) (l.getD 19 0))
  else none

/-- Failure modes of `load_mbm`. -/
inductive MbmError where
  | truncatedHeader
  | badMagic
  | unsupportedPixelFormat
deriving DecidableEq

/-- The 24bpp branch of `load_mbm` (lines 355-359): start from
`[0,0,0,255] * width * height` and, for each pixel index `i`, overwrite
bytes `i*4 .. i*4+3` with the `i`-th 3-byte chunk of the remaining file
contents (sequential `read(3)` calls return exactly the clamped slices
`rest[3*i : 3*i+3]`).  Python multiplies the seed list by each signed
dimension in turn, hence the `w.toNat * h.toNat` seed count, while the
loop runs `range(width * height)`, hence `(w * h).toNat` iterations. -/
def decode24 (rest : List Nat) (w h : Int) : List Nat :=
  (List.range (w * h).toNat).foldl
    (fun pixels i =>
      pySetSlice pixels (i * 4) (i * 4 + 3) (pyGetSlice rest (3 * i) (3 * i + 3)))
    (List.replicate (w.toNat * h.toNat) ([0, 0, 0, 255] : List Nat)).flatten

/-- Embedding of `load_mbm`, taking the whole file as the byte list
`data`.  The bump remap receives the header's signed width/height;
`convert_bump` takes them as `Nat`, which agrees with Python because
its loops are empty unless both are at least 3. -/
def load_mbm (data : List Nat) : Except MbmError (Int × Int × List Nat) :=
  match unpack5i (data.take 20) with
  | none => .error .truncatedHeader
  | some (magic, width, height, bump, bpp) =>
    if magic = 0x50534b03 then
      let rest := data.drop 20
      let pixelsE : Except MbmError (List Nat) :=
        if bpp = 32 then .ok (pyRead rest (width * height * 4))
        else if bpp = 24 then .ok (decode24 rest width height)
        else .error .unsupportedPixelFormat
      match pixelsE with
      | .error e => .error e
      | .ok pixels =>
        .ok (width, height,
          if bump ≠ 0 then convert_bump pixels width.toNat height.toNat else pixels)
    else .error .badMagic

/-! ## Pointwise characterisation of decode24 -/

theorem flatten_replicate_getD (n k : Nat) (a b c e : Nat) :
    ((List.replicate n ([a, b, c, e] : List Nat)).flatten).getD k 0
      = if k < n * 4 then ([a, b, c, e] : List Nat).getD (k % 4) 0 else 0 := by
  induction n generalizing k with
  | zero => simp
  | succ m ih =>
    simp only [List.replicate_succ, List.flatten_cons]
    have hlen4 : ([a, b, c, e] : List Nat).length = 4 := rfl
    by_cases hk : k < 4
    · rw [List.getD_eq_getElem?_getD, List.getElem?_append, hlen4,
        if_pos hk, ← List.getD_eq_getElem?_getD,
        if_pos (by omega), Nat.mod_eq_of_lt hk]
    · rw [List.getD_eq_getElem?_getD, List.getElem?_append, hlen4,
        if_neg hk, ← List.getD_eq_getElem?_getD, ih (k - 4)]
      have hmod : (k - 4) % 4 = k % 4 := by omega
      have hcond : (k - 4 < m * 4) ↔ (k < (m + 1) * 4) := by omega
      rw [hmod]
      by_cases h2 : k < (m + 1) * 4
      · rw [if_pos (hcond.mpr h2), if_pos h2]
      · rw [if_neg (fun hh => h2 (hcond.mp hh)), if_neg h2]

/-- The 3-byte chunk `decode24` writes at byte offset `p`. -/
def mbm24Val (rest : List Nat) (p : Nat) : List Nat :=
  pyGetSlice rest (3 * (p / 4)) (3 * (p / 4) + 3)

theorem decode24_eq_foldl (rest : List Nat) (w h : Nat) :
    decode24 rest (w : Int) (h : Int)
      = ((List.range (w * h)).map (· * 4)).foldl
          (fun b p => pySetSlice b p (p + 3) (mbm24Val rest p))
          (List.replicate (w * h) ([0, 0, 0, 255] : List Nat)).flatten := by
  unfold decode24
  have h1 : (((w : Int)) * (h : Int)).toNat = w * h := rfl
  have h2 : ((w : Int)).toNat * ((h : Int)).toNat = w * h := rfl
  rw [h1, h2, List.foldl_map]
  refine List.foldl_ext _ _ _ (fun b i hi => ?_)
  have hdiv : i * 4 / 4 = i := by omega
  simp only [mbm24Val, hdiv]

theorem decode24_spec (rest : List Nat) (w h : Nat)
    (hpay : w * h * 3 ≤ rest.length) :
    (decode24 rest (w : Int) (h : Int)).length = w * h * 4
    ∧ ∀ i < w * h,
        (∀ j < 3, (decode24 rest (w : Int) (h : Int)).getD (i * 4 + j) 0
          = rest.getD (3 * i + j) 0)
        ∧ (decode24 rest (w : Int) (h : Int)).getD (i * 4 + 3) 0 = 255 := by
  rw [decode24_eq_foldl]
  have hinitlen : ((List.replicate (w * h) ([0, 0, 0, 255] : List Nat)).flatten).length
      = w * h * 4 := by
    rw [List.length_flatten]
    simp [List.map_replicate, List.sum_const_nat]
  have hv : ∀ p ∈ (List.range (w * h)).map (· * 4), (mbm24Val rest p).length = 3 := by
    intro p hp
    obtain ⟨i, hi, rfl⟩ := List.mem_map.mp hp
    rw [List.mem_range] at hi
    have hdiv : i * 4 / 4 = i := by omega
    rw [mbm24Val, hdiv, pyGetSlice_length (by omega) (by omega)]
    omega
  have hb : ∀ p ∈ (List.range (w * h)).map (· * 4),
      p + 3 ≤ ((List.replicate (w * h) ([0, 0, 0, 255] : List Nat)).flatten).length := by
    intro p hp
    obtain ⟨i, hi, rfl⟩ := List.mem_map.mp hp
    rw [List.mem_range] at hi
    omega
  have h4 : ∀ p ∈ (List.range (w * h)).map (· * 4), p % 4 = 0 := by
    intro p hp
    obtain ⟨i, _, rfl⟩ := List.mem_map.mp hp
    omega
  refine ⟨(foldl_pySetSlice_length _ _ _ hv hb).trans hinitlen,
    fun i hi => ⟨fun j hj => ?_, ?_⟩⟩
  · rw [foldl_pySetSlice_getD (by omega) _ _ _ _ hv hb h4]
    have hq : 4 * ((i * 4 + j) / 4) = i * 4 := by omega
    have hr : (i * 4 + j) % 4 = j := by omega
    have hmem : i * 4 ∈ (List.range (w * h)).map (· * 4) :=
      List.mem_map.mpr ⟨i, List.mem_range.mpr hi, rfl⟩
    rw [hq, hr, if_pos ⟨hmem, hj⟩]
    have hdiv : i * 4 / 4 = i := by omega
    rw [mbm24Val, hdiv, pyGetSlice_getD 0 (by omega)]
  · rw [foldl_pySetSlice_getD (by omega) _ _ _ _ hv hb h4]
    have hr : (i * 4 + 3) % 4 = 3 := by omega
    rw [hr, if_neg (by omega), flatten_replicate_getD, if_pos (by omega), hr]
    rfl

/-! ## Raster decoder claims -/

/-- C5: whenever the 20-byte header decodes with a magic field other
than 0x50534B03, `load_mbm` fails with `badMagic`; the `Except.error`
result carries no pixel data, so no partial output is produced. -/
theorem load_mbm_c5 (data : List Nat) (m w h b bpp : Int)
    (hhdr : unpack5i (data.take 20) = some (m, w, h, b, bpp))
    (hm : m ≠ 0x50534b03) :
    load_mbm data = .error .badMagic := by
  unfold load_mbm
  rw [hhdr]
  simp [hm]

/-- Witness for C5: an all-zero 20-byte header. -/
theorem load_mbm_c5_witness :
    unpack5i ((List.replicate 20 (0 : Nat)).take 20) = some (0, 0, 0, 0, 0)
    ∧ (0 : Int) ≠ 0x50534b03
    ∧ load_mbm (List.replicate 20 (0 : Nat)) = .error .badMagic :=
  ⟨by decide, by decide, load_mbm_c5 _ 0 0 0 0 0 (by decide) (by decide)⟩

/-- C6: with valid magic but a bits-per-pixel field that is neither 24
nor 32, `load_mbm` fails with `unsupportedPixelFormat`. -/
theorem load_mbm_c6 (data : List Nat) (w h b bpp : Int)
    (hhdr : unpack5i (data.take 20) = some (0x50534b03, w, h, b, bpp))
    (h32 : bpp ≠ 32) (h24 : bpp ≠ 24) :
    load_mbm data = .error .unsupportedPixelFormat := by
  unfold load_mbm
  rw [hhdr]
  simp [h32, h24]

/-- Concrete header with valid magic and bpp = 16. -/
def c6Data : List Nat :=
  [3, 75, 83, 80, 1, 0, 0, 0, 1, 0, 0, 0, 0, 0, 0, 0, 16, 0, 0, 0]

/-- Witness for C6 at bpp = 16. -/
theorem load_mbm_c6_witness :
    unpack5i (c6Data.take 20) = some (0x50534b03, 1, 1, 0, 16)
    ∧ (16 : Int) ≠ 32 ∧ (16 : Int) ≠ 24
    ∧ load_mbm c6Data = .error .unsupportedPixelFormat :=
  ⟨by decide, by decide, by decide,
    load_mbm_c6 c6Data 1 1 0 16 (by decide) (by decide) (by decide)⟩

/-- C4: with valid magic, bpp = 24, bump flag 0 and a payload of at
least `width*height*3` bytes, `load_mbm` succeeds with the header's
width and height and an RGBA buffer in which pixel `i` carries the
`i`-th payload RGB triple and alpha 255. -/
theorem load_mbm_c4 (data : List Nat) (w h : Nat)
    (hhdr : unpack5i (data.take 20) = some (0x50534b03, (w : Int), (h : Int), 0, 24))
    (hpay : w * h * 3 ≤ (data.drop 20).length) :
    ∃ pixels, load_mbm data = .ok ((w : Int), (h : Int), pixels)
      ∧ pixels.length = w * h * 4
      ∧ ∀ i < w * h,
          (∀ j < 3, pixels.getD (i * 4 + j) 0 = (data.drop 20).getD (3 * i + j) 0)
          ∧ pixels.getD (i * 4 + 3) 0 = 255 := by
  refine ⟨decode24 (data.drop 20) (w : Int) (h : Int), ?_, ?_, ?_⟩
  · unfold load_mbm
    rw [hhdr]
    norm_num
  · exact (decode24_spec _ w h hpay).1
  · exact (decode24_spec _ w h hpay).2

/-- Concrete 2×2 24bpp container: header plus 12 RGB payload bytes. -/
def c4Data : List Nat :=
  [3, 75, 83, 80, 2, 0, 0, 0, 2, 0, 0, 0, 0, 0, 0, 0, 24, 0, 0, 0,
   1, 2, 3, 4, 5, 6, 7, 8, 9, 10, 11, 12]

/-- Witness for C4 on the concrete 2×2 container. -/
theorem load_mbm_c4_witness :
    unpack5i (c4Data.take 20) = some (0x50534b03, 2, 2, 0, 24)
    ∧ 2 * 2 * 3 ≤ (c4Data.drop 20).length
    ∧ ∃ pixels, load_mbm c4Data = .ok ((2 : Int), (2 : Int), pixels)
      ∧ pixels.length = 2 * 2 * 4
      ∧ ∀ i < 2 * 2,
          (∀ j < 3, pixels.getD (i * 4 + j) 0 = (c4Data.drop 20).getD (3 * i + j) 0)
          ∧ pixels.getD (i * 4 + 3) 0 = 255 :=
  ⟨by decide, by decide, load_mbm_c4 c4Data 2 2 (by decide) (by decide)⟩

/-- Concrete 1×1 32bpp container with an empty payload. -/
def c7Data : List Nat :=
  [3, 75, 83, 80, 1, 0, 0, 0, 1, 0, 0, 0, 0, 0, 0, 0, 32, 0, 0, 0]

/-- C7 counterexample: a 1×1 32bpp container whose payload is empty is
accepted (valid magic, supported bit depth), yet the returned buffer is
empty rather than of length `width*height*4 = 4`: with a truncated
payload `file.read` returns fewer bytes than requested. -/
theorem load_mbm_c7_counterexample :
    load_mbm c7Data = .ok (1, 1, ([] : List Nat))
    ∧ ([] : List Nat).length ≠ 1 * 1 * 4 :=
  ⟨rfl, by decide⟩

/-- C7 (amended): with valid magic, bpp either 24 or 32, and a payload
of at least `width*height*3` bytes (24bpp) respectively
`width*height*4` bytes (32bpp), `load_mbm` returns the header's width
and height together with a pixel buffer of length exactly
`width*height*4`; with a shorter payload the buffer can be shorter. -/
theorem load_mbm_c7_amended (data : List Nat) (w h : Nat) (b bpp : Int)
    (hhdr : unpack5i (data.take 20) = some (0x50534b03, (w : Int), (h : Int), b, bpp))
    (hbpp : bpp = 24 ∨ bpp = 32)
    (hpay : (if bpp = 24 then w * h * 3 else w * h * 4) ≤ (data.drop 20).length) :
    ∃ pixels, load_mbm data = .ok ((w : Int), (h : Int), pixels)
      ∧ pixels.length = w * h * 4 := by
  have hwt : ((w : Int)).toNat = w := rfl
  have hht : ((h : Int)).toNat = h := rfl
  rcases hbpp with rfl | rfl
  · rw [if_pos rfl] at hpay
    have hlen := (decode24_spec (data.drop 20) w h hpay).1
    by_cases hbump : b = 0
    · subst hbump
      refine ⟨decode24 (data.drop 20) (w : Int) (h : Int), ?_, hlen⟩
      unfold load_mbm
      rw [hhdr]
      norm_num
    · refine ⟨convert_bump (decode24 (data.drop 20) (w : Int) (h : Int)) w h, ?_, ?_⟩
      · unfold load_mbm
        rw [hhdr]
        simp only [if_neg (by norm_num : ¬(24 : Int) = 32), if_pos rfl,
          if_pos (by decide : (0x50534b03 : Int) = 0x50534b03), hwt, hht]
        simp [hbump]
      · rw [convert_bump_length _ w h hlen, hlen]
  · rw [if_neg (by norm_num)] at hpay
    have hlen : (pyRead (data.drop 20) ((w : Int) * (h : Int) * 4)).length = w * h * 4 := by
      have hnn : ¬((w : Int) * (h : Int) * 4 < 0) := by
        push_neg
        positivity
      have htn : (((w : Int)) * (h : Int) * 4).toNat = w * h * 4 := rfl
      rw [pyRead, if_neg hnn, htn, List.length_take]
      omega
    by_cases hbump : b = 0
    · subst hbump
      refine ⟨pyRead (data.drop 20) ((w : Int) * (h : Int) * 4), ?_, hlen⟩
      unfold load_mbm
      rw [hhdr]
      norm_num
    · refine ⟨convert_bump (pyRead (data.drop 20) ((w : Int) * (h : Int) * 4)) w h, ?_, ?_⟩
      · unfold load_mbm
        rw [hhdr]
        simp only [if_pos (by decide : (0x50534b03 : Int) = 0x50534b03),
          if_pos rfl, hwt, hht]
        simp [hbump]
      · rw [convert_bump_length _ w h hlen, hlen]

/-- Concrete 1×1 24bpp container with a 3-byte payload, for the amended
C7 theorem. -/
def c7GoodData : List Nat :=
  [3, 75, 83, 80, 1, 0, 0, 0, 1, 0, 0, 0, 0, 0, 0, 0, 24, 0, 0, 0, 9, 9, 9]

/-- Witness for the amended C7 on the concrete 1×1 24bpp container. -/
theorem load_mbm_c7_amended_witness :
    unpack5i (c7GoodData.take 20) = some (0x50534b03, 1, 1, 0, 24)
    ∧ ((24 : Int) = 24 ∨ (24 : Int) = 32)
    ∧ (if (24 : Int) = 24 then 1 * 1 * 3 else 1 * 1 * 4) ≤ (c7GoodData.drop 20).length
    ∧ ∃ pixels, load_mbm c7GoodData = .ok ((1 : Int), (1 : Int), pixels)
      ∧ pixels.length = 1 * 1 * 4 :=
  ⟨by decide, Or.inl rfl, by decide,
    load_mbm_c7_amended c7GoodData 1 1 0 24 (by decide) (Or.inl rfl) (by decide)⟩

/-! ## Scene-graph nodes and the path-indexing pass

`create_object_paths` (import_mu.py lines 427-440) walks the decoded
node tree depth-first with a stack of ancestor names, assigns
`obj.path = "/".join(parents)` after pushing the node's own name, and
inserts the node into `mu.objects` (keyed by name) and
`mu.object_paths` (keyed by path).  Only the transform name and the
child list matter to this pass, so a node is modelled by those two
fields.  The pass is modelled functionally: the traversal returns the
ordered list of `(name key, path key, node)` insertions, and the two
dicts are `pyDict` over the respective key projections. -/

/-- A decoded scene-graph node, restricted to the fields the
path-indexing pass reads: `obj.transform.name` and `obj.children`. -/
inductive MuNode where
  | mk (name : String) (children : List MuNode)

/-- The node's transform name. -/
def MuNode.name : MuNode → String
  | .mk n _ => n

/-- The node's decoded children, in order. -/
def MuNode.children : MuNode → List MuNode
  | .mk _ c => c

/-- Embedding of `create_object_paths`: the ordered list of
`(name, path, node)` table insertions performed by the traversal that
starts at this node with the given ancestor-name stack. -/
def create_object_paths : MuNode → List String → List (String × String × MuNode)
  | .mk name children, parents =>
    (name, pyJoin "/" (parents ++ [name]), .mk name children)
      :: children.attach.flatMap
          (fun c => create_object_paths c.val (parents ++ [name]))
termination_by obj _ => sizeOf obj
decreasing_by
  have := List.sizeOf_lt_of_mem c.2
  simp only [MuNode.mk.sizeOf_spec]
  omega

/-- The `mu.objects` name→node dict after the indexing pass over the
tree rooted at `obj` (the source resets both dicts and starts the
traversal at the root with an empty stack). -/
def objectsTable (obj : MuNode) : String → Option MuNode :=
  pyDict ((create_object_paths obj []).map (fun e => (e.1, e.2.2)))

/-- The `mu.object_paths` path→node dict after the indexing pass over
the tree rooted at `obj`. -/
def objectPathsTable (obj : MuNode) : String → Option MuNode :=
  pyDict ((create_object_paths obj []).map (fun e => (e.2.1, e.2.2)))

/-- Specification-side description of the traversal (§4.9 of the
spec): the pre-order listing of the subtree rooted at a node, children
in decoded order, each node paired with the list of its ancestor names
within that subtree. -/
def preorderAnc : MuNode → List (List String × MuNode)
  | .mk name children =>
    ([], .mk name children)
      :: children.attach.flatMap
          (fun c => (preorderAnc c.val).map (fun an => (name :: an.1, an.2)))
termination_by obj => sizeOf obj
decreasing_by
  have := List.sizeOf_lt_of_mem c.2
  simp only [MuNode.mk.sizeOf_spec]
  omega

/-! ### Helpers for `List.attach`-based recursion -/

theorem attach_flatMap (l : List α) (g : α → List β) :
    l.attach.flatMap (fun c => g c.val) = l.flatMap g := by
  conv_rhs => rw [← List.attach_map_subtype_val l]
  rw [List.flatMap_map]

theorem attach_all (l : List α) (p : α → Bool) :
    l.attach.all (fun c => p c.val) = l.all p := by
  rw [Bool.eq_iff_iff, List.all_eq_true, List.all_eq_true]
  constructor
  · intro H x hx
    exact H ⟨x, hx⟩ (List.mem_attach _ _)
  · intro H c _
    exact H c.val c.2

/-- Plain recursion equation for `create_object_paths`, with the
`attach` bookkeeping removed. -/
theorem create_object_paths_mk (n : String) (cs : List MuNode) (parents : List String) :
    create_object_paths (.mk n cs) parents
      = (n, pyJoin "/" (parents ++ [n]), .mk n cs)
          :: cs.flatMap (fun c => create_object_paths c (parents ++ [n])) := by
  rw [create_object_paths]
  congr 1
  exact attach_flatMap cs (fun c => create_object_paths c (parents ++ [n]))

/-- Plain recursion equation for `preorderAnc`. -/
theorem preorderAnc_mk (n : String) (cs : List MuNode) :
    preorderAnc (.mk n cs)
      = ([], .mk n cs)
          :: cs.flatMap (fun c => (preorderAnc c).map (fun an => (n :: an.1, an.2))) := by
  rw [preorderAnc]
  congr 1
  exact attach_flatMap cs (fun c => (preorderAnc c).map (fun an => (n :: an.1, an.2)))

/-- The traversal's insertion list is exactly the pre-order node list,
each node keyed by its name and by the slash-join of the ancestor stack
at the call, the node's ancestors within the subtree, and its own
name. -/
theorem create_object_paths_eq (obj : MuNode) (parents : List String) :
    create_object_paths obj parents
      = (preorderAnc obj).map
          (fun an => (an.2.name, pyJoin "/" (parents ++ an.1 ++ [an.2.name]), an.2)) := by
  induction obj, parents using create_object_paths.induct with
  | _ name children parents ih =>
    rw [create_object_paths_mk, preorderAnc_mk, List.map_cons]
    congr 1
    · simp [MuNode.name]
    · rw [List.map_flatMap]
      refine List.flatMap_congr (fun c hc => ?_)
      rw [ih ⟨c, hc⟩, List.map_map]
      refine List.map_congr_left (fun an _ => ?_)
      simp [List.append_assoc]

theorem objectsTable_eq (obj : MuNode) :
    objectsTable obj
      = pyDict (((preorderAnc obj).map (fun an => an.2)).map (fun b => (b.name, b))) := by
  unfold objectsTable
  rw [create_object_paths_eq obj [], List.map_map, List.map_map]
  rfl

theorem objectPathsTable_eq (obj : MuNode) :
    objectPathsTable obj
      = pyDict ((preorderAnc obj).map (fun an => (pyJoin "/" (an.1 ++ [an.2.name]), an.2))) := by
  unfold objectPathsTable
  rw [create_object_paths_eq obj [], List.map_map]
  rfl

/-- C2: after the indexing pass, the traversal's insertion list is the
pre-order listing of the tree (children in decoded order), and every
node is keyed in `mu.objects` by its name and in `mu.object_paths` by
the slash-join of its ancestor names followed by its own name; at the
root call the stack is empty, so the root's path is its own name and
each node's path extends its parent's by `"/" ++ name`. -/
theorem create_object_paths_c2 (obj : MuNode) (parents : List String) :
    create_object_paths obj parents
      = (preorderAnc obj).map
          (fun an => (an.2.name, pyJoin "/" (parents ++ an.1 ++ [an.2.name]), an.2))
    ∧ objectsTable obj
      = pyDict (((preorderAnc obj).map (fun an => an.2)).map (fun b => (b.name, b)))
    ∧ objectPathsTable obj
      = pyDict ((preorderAnc obj).map (fun an => (pyJoin "/" (an.1 ++ [an.2.name]), an.2))) :=
  ⟨create_object_paths_eq obj parents, objectsTable_eq obj, objectPathsTable_eq obj⟩

/-! ### Path uniqueness (C3)

Path strings are *not* unique for arbitrary decoded trees: two
same-named siblings receive identical paths.  Uniqueness holds once no
name contains `'/'` and every node's children carry pairwise distinct
names. -/

/-- Name sequence (ancestors then own name) of every node of the
subtree, in pre-order; the assigned path is the slash-join of it. -/
def nameSeqs (obj : MuNode) : List (List String) :=
  (preorderAnc obj).map (fun an => an.1 ++ [an.2.name])

/-- Well-formedness used by the amended C3: no node name contains a
slash, and each node's children bear pairwise distinct names. -/
def goodNames : MuNode → Bool
  | .mk name children =>
    name.data.all (· ≠ '/')
      && decide ((children.map MuNode.name).Nodup)
      && children.attach.all (fun c => goodNames c.val)
termination_by obj => sizeOf obj
decreasing_by
  have := List.sizeOf_lt_of_mem c.2
  simp only [MuNode.mk.sizeOf_spec]
  omega

/-- Plain recursion equation for `goodNames`. -/
theorem goodNames_mk (n : String) (cs : List MuNode) :
    goodNames (.mk n cs)
      = (n.data.all (· ≠ '/')
          && decide ((cs.map MuNode.name).Nodup)
          && cs.all goodNames) := by
  rw [goodNames]
  congr 1
  exact attach_all cs goodNames

theorem nameSeqs_mk (n : String) (cs : List MuNode) :
    nameSeqs (.mk n cs)
      = [n] :: cs.flatMap (fun c => (nameSeqs c).map (n :: ·)) := by
  unfold nameSeqs
  rw [preorderAnc_mk, List.map_cons, List.map_flatMap]
  congr 1
  refine List.flatMap_congr (fun c _ => ?_)
  rw [List.map_map, List.map_map]
  rfl

theorem nameSeqs_ne_nil (obj : MuNode) {s : List String} (hs : s ∈ nameSeqs obj) :
    s ≠ [] ∧ s.head? = some obj.name := by
  obtain ⟨n, cs⟩ := obj
  rw [nameSeqs_mk] at hs
  rcases List.mem_cons.mp hs with rfl | hmem
  · exact ⟨by simp, rfl⟩
  · obtain ⟨c, _, hc⟩ := List.mem_flatMap.mp hmem
    obtain ⟨t, _, rfl⟩ := List.mem_map.mp hc
    exact ⟨by simp, rfl⟩

theorem goodNames_parts {n : String} {cs : List MuNode}
    (h : goodNames (.mk n cs) = true) :
    n.data.all (· ≠ '/') = true
    ∧ (cs.map MuNode.name).Nodup
    ∧ ∀ c ∈ cs, goodNames c = true := by
  rw [goodNames_mk, Bool.and_assoc, Bool.and_eq_true, Bool.and_eq_true] at h
  exact ⟨h.1, of_decide_eq_true h.2.1, List.all_eq_true.mp h.2.2⟩

theorem nameSeqs_nodup (obj : MuNode) (hgood : goodNames obj = true) :
    (nameSeqs obj).Nodup := by
  induction obj using preorderAnc.induct with
  | _ n cs ih =>
    obtain ⟨hslash, hnodup, hchild⟩ := goodNames_parts hgood
    rw [nameSeqs_mk, List.nodup_cons]
    constructor
    · intro hmem
      obtain ⟨c, _, hc⟩ := List.mem_flatMap.mp hmem
      obtain ⟨t, ht, heq⟩ := List.mem_map.mp hc
      have htnil : t = [] := by simpa using heq
      exact (nameSeqs_ne_nil c ht).1 htnil
    · rw [List.nodup_flatMap]
      constructor
      · intro c hc
        exact List.Nodup.map (fun a b hab => by simpa using hab)
          (ih ⟨c, hc⟩ (hchild c hc))
      · have hpn : cs.Pairwise (fun a b => a.name ≠ b.name) :=
          (List.pairwise_map.mp hnodup)
        refine hpn.imp (fun hab => ?_)
        intro s hs1 hs2
        obtain ⟨t1, ht1, rfl⟩ := List.mem_map.mp hs1
        obtain ⟨t2, ht2, heq⟩ := List.mem_map.mp hs2
        have heq2 : t2 = t1 := by simpa using heq
        have h1 := (nameSeqs_ne_nil _ ht1).2
        have h2 := (nameSeqs_ne_nil _ ht2).2
        rw [heq2, h1] at h2
        exact hab (Option.some.inj h2)

theorem intercalate_cons_cons (sep : List α) (x y : List α) (l : List (List α)) :
    List.intercalate sep (x :: y :: l) = x ++ sep ++ List.intercalate sep (y :: l) := by
  simp [List.intercalate, List.intersperse]

theorem pyJoin_data (l : List String) :
    (pyJoin "/" l).data = List.intercalate ['/'] (l.map String.data) := by
  induction l with
  | nil => simp [pyJoin, List.intercalate]
  | cons s t ih =>
    cases t with
    | nil => simp [pyJoin, List.intercalate]
    | cons s2 t2 =>
      have hL : (pyJoin "/" (s :: s2 :: t2)).data
          = s.data ++ ['/'] ++ (pyJoin "/" (s2 :: t2)).data := by
        rw [show pyJoin "/" (s :: s2 :: t2) = s ++ "/" ++ pyJoin "/" (s2 :: t2) from rfl,
          String.data_append, String.data_append]
      rw [hL, ih]
      simp only [List.map_cons]
      rw [intercalate_cons_cons]

theorem map_data_injective {l1 l2 : List String}
    (h : l1.map String.data = l2.map String.data) : l1 = l2 := by
  induction l1 generalizing l2 with
  | nil => cases l2 <;> simp_all
  | cons s t ih =>
    cases l2 with
    | nil => simp_all
    | cons s2 t2 =>
      simp only [List.map_cons, List.cons.injEq] at h
      rw [String.ext h.1, ih h.2]

theorem pyJoin_inj {l1 l2 : List String}
    (h1 : ∀ s ∈ l1, '/' ∉ s.data) (h2 : ∀ s ∈ l2, '/' ∉ s.data)
    (hn1 : l1 ≠ []) (hn2 : l2 ≠ [])
    (heq : pyJoin "/" l1 = pyJoin "/" l2) : l1 = l2 := by
  have hd : List.intercalate ['/'] (l1.map String.data)
      = List.intercalate ['/'] (l2.map String.data) := by
    rw [← pyJoin_data, ← pyJoin_data, heq]
  have e1 := List.splitOn_intercalate (l1.map String.data) '/'
    (by
      intro d hd'
      obtain ⟨s, hs, rfl⟩ := List.mem_map.mp hd'
      exact h1 s hs)
    (by simpa using hn1)
  have e2 := List.splitOn_intercalate (l2.map String.data) '/'
    (by
      intro d hd'
      obtain ⟨s, hs, rfl⟩ := List.mem_map.mp hd'
      exact h2 s hs)
    (by simpa using hn2)
  exact map_data_injective (by rw [← e1, ← e2, hd])

theorem nameSeqs_slashFree (obj : MuNode) (hgood : goodNames obj = true) :
    ∀ s ∈ nameSeqs obj, ∀ nm ∈ s, '/' ∉ nm.data := by
  induction obj using preorderAnc.induct with
  | _ n cs ih =>
    obtain ⟨hslash, _, hchild⟩ := goodNames_parts hgood
    intro s hs nm hnm
    rw [nameSeqs_mk] at hs
    rcases List.mem_cons.mp hs with rfl | hmem
    · have hn : nm = n := by simpa using hnm
      subst hn
      intro hmem'
      have := List.all_eq_true.mp hslash _ hmem'
      simp at this
    · obtain ⟨c, hc, hcmem⟩ := List.mem_flatMap.mp hmem
      obtain ⟨t, ht, rfl⟩ := List.mem_map.mp hcmem
      rcases List.mem_cons.mp hnm with rfl | hnm2
      · intro hmem'
        have := List.all_eq_true.mp hslash _ hmem'
        simp at this
      · exact ih ⟨c, hc⟩ (hchild c hc) t ht nm hnm2

/-- C3 counterexample: on the tree with root `"r"` and two children
both named `"a"`, the traversal assigns the path `"r/a"` to both
children, so the assigned path strings are not pairwise distinct. -/
theorem create_object_paths_c3_counterexample :
    ((create_object_paths (.mk "r" [.mk "a" [], .mk "a" []]) []).map (fun e => e.2.1))
      = ["r", "r/a", "r/a"]
    ∧ ¬ (["r", "r/a", "r/a"] : List String).Nodup := by
  constructor
  · simp only [create_object_paths_mk, List.flatMap_cons, List.flatMap_nil,
      List.map_cons, List.map_nil, List.append_nil, List.nil_append, pyJoin]
    decide
  · decide

/-- C3 (amended): after the indexing pass over a decoded node tree in
which no node name contains `'/'` and every node's children bear
pairwise distinct names, the assigned path strings are pairwise
distinct, so every path→node entry is reachable by exactly one path. -/
theorem create_object_paths_c3_amended (obj : MuNode)
    (hgood : goodNames obj = true) :
    ((create_object_paths obj []).map (fun e => e.2.1)).Nodup := by
  rw [create_object_paths_eq obj [], List.map_map]
  have hconv : (preorderAnc obj).map
      ((fun e => e.2.1)
        ∘ (fun an => (an.2.name, pyJoin "/" ([] ++ an.1 ++ [an.2.name]), an.2)))
      = (nameSeqs obj).map (fun s => pyJoin "/" s) := by
    unfold nameSeqs
    rw [List.map_map]
    rfl
  rw [hconv]
  refine List.Nodup.map_on ?_ (nameSeqs_nodup obj hgood)
  intro s1 hs1 s2 hs2 hj
  exact pyJoin_inj (nameSeqs_slashFree obj hgood s1 hs1)
    (nameSeqs_slashFree obj hgood s2 hs2)
    (nameSeqs_ne_nil obj hs1).1 (nameSeqs_ne_nil obj hs2).1 hj

/-- Witness for the amended C3: a tree with a repeated name on
different levels but distinct sibling names. -/
theorem create_object_paths_c3_amended_witness :
    goodNames (.mk "r" [.mk "a" [], .mk "b" [.mk "a" []]]) = true
    ∧ ((create_object_paths (.mk "r" [.mk "a" [], .mk "b" [.mk "a" []]]) []).map
        (fun e => e.2.1)).Nodup :=
  ⟨by
    simp only [goodNames_mk, List.all_cons, List.all_nil]
    decide,
   create_object_paths_c3_amended _ (by
    simp only [goodNames_mk, List.all_cons, List.all_nil]
    decide)⟩

/-! ### Name lookup is last-writer-wins (C8) -/

theorem pyDict_lookup (l : List (String × α)) (init : String → Option α) (k : String) :
    List.foldl (fun d kv k' => if k' = kv.1 then some kv.2 else d k') init l k
      = match (l.filter (fun kv => kv.1 = k)).getLast? with
        | some kv => some kv.2
        | none => init k := by
  induction l generalizing init with
  | nil => rfl
  | cons kv t ih =>
    rw [List.foldl_cons, ih, List.filter_cons]
    by_cases hp : kv.1 = k
    · rw [if_pos (decide_eq_true hp)]
      rw [show kv :: t.filter (fun kv => kv.1 = k)
          = [kv] ++ t.filter (fun kv => kv.1 = k) from rfl,
        List.getLast?_append]
      generalize (t.filter (fun kv => kv.1 = k)).getLast? = o
      cases o with
      | none =>
        show (if k = kv.1 then some kv.2 else init k) = _
        rw [if_pos hp.symm]
        rfl
      | some kv2 => rfl
    · rw [if_neg (fun hc => hp (of_decide_eq_true hc))]
      generalize (t.filter (fun kv => kv.1 = k)).getLast? = o
      cases o with
      | none =>
        show (if k = kv.1 then some kv.2 else init k) = _
        rw [if_neg (fun h => hp h.symm)]
      | some kv2 => rfl

/-- Last-writer-wins lookup for a dict built by keying each element of
a list with a key function. -/
theorem foldl_map_lookup {β : Type _} (l : List β) (key : β → String) (k : String)
    (init : String → Option β) :
    List.foldl (fun d kv k => if k = kv.1 then some kv.2 else d k) init
        (l.map (fun b => (key b, b))) k
      = match (l.filter (fun b => key b = k)).getLast? with
        | some b => some b
        | none => init k := by
  induction l generalizing init with
  | nil => rfl
  | cons b t ih =>
    rw [List.map_cons, List.foldl_cons, ih, List.filter_cons]
    by_cases hp : key b = k
    · rw [if_pos (decide_eq_true hp)]
      rw [show b :: t.filter (fun b => key b = k)
          = [b] ++ t.filter (fun b => key b = k) from rfl,
        List.getLast?_append]
      generalize (t.filter (fun b => key b = k)).getLast? = o
      cases o with
      | none =>
        show (if k = key b then some b else init k) = _
        rw [if_pos hp.symm]
        rfl
      | some b2 => rfl
    · rw [if_neg (fun hc => hp (of_decide_eq_true hc))]
      generalize (t.filter (fun b => key b = k)).getLast? = o
      cases o with
      | none =>
        show (if k = key b then some b else init k) = _
        rw [if_neg (fun h => hp h.symm)]
      | some b2 => rfl

/-- C8: after the indexing pass, looking a name up in `mu.objects`
yields the last node bearing that name in pre-order traversal order
(later inserts overwrite earlier ones), and `none` for names that do
not occur. -/
theorem objectsTable_c8 (obj : MuNode) (nm : String) :
    objectsTable obj nm
      = (((preorderAnc obj).map (fun an => an.2)).filter
          (fun node => node.name = nm)).getLast? := by
  rw [objectsTable_eq]
  unfold pyDict
  rw [foldl_map_lookup]
  generalize (((preorderAnc obj).map (fun an => an.2)).filter
      (fun node => node.name = nm)).getLast? = o
  cases o <;> rfl

/-! ## create_action curve path resolution (import_mu.py lines 205-216)

Per animation curve, `create_action` computes the lookup path
`mu_path`: the owning node's path if `curve.path` is falsy (the empty
string), else `"/".join([path, curve.path])`, and looks it up in
`mu.object_paths` (skipping the curve when absent). -/

/-- Embedding of the per-curve binding lookup of `create_action`. -/
def create_action_lookup (object_paths : String → Option MuNode)
    (path : String) (curvePath : String) : Option MuNode :=
  let mu_path := if curvePath = "" then path else pyJoin "/" [path, curvePath]
  object_paths mu_path

/-- C9: the path used against the path→node table is the owning node's
own path when the curve's relative path is empty, and otherwise the
owning node's path followed by a slash and the curve's relative
path. -/
theorem create_action_lookup_c9 (object_paths : String → Option MuNode)
    (path curvePath : String) :
    create_action_lookup object_paths path curvePath
      = object_paths (if curvePath = "" then path else path ++ "/" ++ curvePath) := by
  unfold create_action_lookup
  by_cases h : curvePath = ""
  · rw [if_pos h, if_pos h]
  · rw [if_neg h, if_neg h]
    rfl

/-! ## copy_friction (import_mu.py lines 75-80)

`copy_friction` copies a wheel collider's friction curve into the
Blender-side property group; it is called for both the forward and the
sideways curve when a Wheel collider is imported (lines 281-282).  The
source record (Unity's WheelFrictionCurve) carries an asymptoteValue,
but the function never copies it, and it assigns extremumValue twice
(lines 77 and 79). -/

/-- The fields of a wheel-friction record on either side of the copy. -/
structure WheelFriction (α : Type) where
  extremumSlip : α
  extremumValue : α
  asymptoteSlip : α
  asymptoteValue : α
  stiffness : α

/-- Names of the wheel-friction fields, for the write trace. -/
inductive FrictionField where
  | extremumSlip
  | extremumValue
  | asymptoteSlip
  | asymptoteValue
  | stiffness
deriving DecidableEq

/-- Assign one field of a friction record. -/
def setField (dst : WheelFriction α) : FrictionField → α → WheelFriction α
  | .extremumSlip, v => { dst with extremumSlip := v }
  | .extremumValue, v => { dst with extremumValue := v }
  | .asymptoteSlip, v => { dst with asymptoteSlip := v }
  | .asymptoteValue, v => { dst with asymptoteValue := v }
  | .stiffness, v => { dst with stiffness := v }

/-- The exact assignment sequence of `copy_friction`, in source order:
extremumSlip, extremumValue, asymptoteSlip, extremumValue again,
stiffness. -/
def copy_friction_writes (src : WheelFriction α) : List (FrictionField × α) :=
  [(.extremumSlip, src.extremumSlip),
   (.extremumValue, src.extremumValue),
   (.asymptoteSlip, src.asymptoteSlip),
   (.extremumValue, src.extremumValue),
   (.stiffness, src.stiffness)]

/-- Embedding of `copy_friction`: apply the assignments in order. -/
def copy_friction (dst src : WheelFriction α) : WheelFriction α :=
  (copy_friction_writes src).foldl (fun d fv => setField d fv.1 fv.2) dst

/-- C10: `copy_friction` writes only the destination fields
extremumSlip, extremumValue (assigned twice), asymptoteSlip and
stiffness, copying each from the source; asymptoteValue — though the
source carries one — and every other destination field is left
unchanged. -/
theorem copy_friction_c10 (α : Type) (dst src : WheelFriction α) :
    copy_friction dst src
      = { extremumSlip := src.extremumSlip, extremumValue := src.extremumValue,
          asymptoteSlip := src.asymptoteSlip, asymptoteValue := dst.asymptoteValue,
          stiffness := src.stiffness }
    ∧ (copy_friction_writes src).map Prod.fst
      = [.extremumSlip, .extremumValue, .asymptoteSlip, .extremumValue, .stiffness]
    ∧ FrictionField.asymptoteValue ∉ (copy_friction_writes src).map Prod.fst := by
  refine ⟨rfl, rfl, ?_⟩
  intro hmem
  simp [copy_friction_writes] at hmem

end ImportMu
